import Mathlib

/-!
# Verification of the keystone-services-fund index handler

Shallow embedding of `src/handler.go`: a Go HTTP handler that resolves a
blend-preset token, loads two daily price series through a file-cache
(`PrepareSymbolJSONData`), forward-fills the equity series onto the crypto
calendar (`forwardFillStockData` / `incrementDate`), and composes a
normalized index rebased to 100 (`Handler`, lines 99-123).

Modelling conventions:
* Go `float64` values are modelled as `ℚ` (with `x / 0 = 0` as in Mathlib);
  `int`/`int64` as `ℤ`.
* Go date strings stay `String`; Go's bytewise `<=` on strings is modelled
  by the lexicographic `String` order (identical on the ASCII strings the
  program manipulates).
* `time.Parse(time.DateOnly, s)` is modelled by `parseDate` (exact
  `YYYY-MM-DD` shape, month and day-of-month range checks, Gregorian leap
  years), `t.AddDate(0,0,1)` by `addDay`, and `t.Format(time.DateOnly)` by
  `formatDate` (zero-padded to width 4/2/2, full digits above year 9999).
* The unbounded `for currentDate <= endDate` loop is modelled with explicit
  fuel: `ffLoop fuel … = none` means the loop has not finished within
  `fuel` iterations, and `∀ fuel, … = none` is non-termination.
* A Go slice access out of range (a runtime panic) is modelled by `none`,
  as is a `log.Fatal` call (`PrepResult.fatal`): both abort the request
  without producing a response body.
* JSON decoding (`json.Unmarshal`) and the upstream fetch
  (`readDataFromURL`) are opaque collaborators, passed in as parameters.
-/

/-- `StockData` from handler.go lines 32-40: one daily bar. Floats become `ℚ`. -/
structure StockData where
  Date : String
  Open : ℚ
  High : ℚ
  Low : ℚ
  Close : ℚ
  AdjClose : ℚ
  Volume : ℤ
deriving DecidableEq, Repr

/-- `IndexData` from handler.go lines 42-45: one output index point. -/
structure IndexData where
  Date : String
  AdjClose : ℚ
deriving DecidableEq, Repr

/-! ## Go string comparison and upper-casing

Go compares strings bytewise; on the ASCII data this program handles that
is the character-wise lexicographic order computed here (kernel-reducible,
unlike the library `String` order). -/

/-- Lexicographic strict order on character lists (Go's `<` on strings). -/
def listLt : List Char → List Char → Bool
  | [], [] => false
  | [], _ :: _ => true
  | _ :: _, [] => false
  | a :: as, b :: bs => if a < b then true else if b < a then false else listLt as bs

/-- Go's `<` on strings. -/
def strLt (s t : String) : Bool := listLt s.data t.data

/-- Go's `<=` on strings (`s <= t` iff not `t < s`). -/
def strLe (s t : String) : Bool := !(strLt t s)

/-- `strings.ToUpper` (ASCII model, matching the tokens this program sees). -/
def toUpperGo (s : String) : String := ⟨s.data.map Char.toUpper⟩

/-! ## Date arithmetic (`time.Parse` / `AddDate(0,0,1)` / `Format`) -/

/-- The character for a decimal digit (`0 ≤ n ≤ 9`). -/
def digitChar (n : Nat) : Char :=
  match n with
  | 0 => '0' | 1 => '1' | 2 => '2' | 3 => '3' | 4 => '4'
  | 5 => '5' | 6 => '6' | 7 => '7' | 8 => '8' | _ => '9'

/-- The value of a decimal digit character (Go's `c - '0'` guarded by the
digit check of `getnum`), `none` for non-digits. -/
def digitVal (c : Char) : Option Nat :=
  if c.isDigit then some (c.toNat - 48) else none

/-- Gregorian leap year, as computed by Go's `time` package. -/
def isLeap (y : Nat) : Bool :=
  y % 4 == 0 && (y % 100 != 0 || y % 400 == 0)

/-- Days in a month (`time.daysIn`). Only consulted for `1 ≤ m ≤ 12`. -/
def daysInMonth (y m : Nat) : Nat :=
  match m with
  | 2 => if isLeap y then 29 else 28
  | 4 => 30 | 6 => 30 | 9 => 30 | 11 => 30
  | _ => 31

/-- `time.Parse(time.DateOnly, s)`: accepts exactly `YYYY-MM-DD` with a
four-digit year, two-digit zero-padded month and day, `1 ≤ month ≤ 12` and
`1 ≤ day ≤ daysInMonth` (Go's "month out of range" / "day out of range"
checks). Returns `(year, month, day)`. -/
def parseDate (s : String) : Option (Nat × Nat × Nat) :=
  match s.data with
  | [y3, y2, y1, y0, s1, m1, m0, s2, d1, d0] =>
    match digitVal y3, digitVal y2, digitVal y1, digitVal y0,
          digitVal m1, digitVal m0, digitVal d1, digitVal d0 with
    | some a3, some a2, some a1, some a0, some b1, some b0, some c1, some c0 =>
      if s1 = '-' ∧ s2 = '-' then
        let y := ((a3 * 10 + a2) * 10 + a1) * 10 + a0
        let m := b1 * 10 + b0
        let d := c1 * 10 + c0
        if 1 ≤ m ∧ m ≤ 12 ∧ 1 ≤ d ∧ d ≤ daysInMonth y m then some (y, m, d) else none
      else none
    | _, _, _, _, _, _, _, _ => none
  | _ => none

/-- `t.Format(time.DateOnly)`: zero-padded `YYYY-MM-DD`; a year above 9999
prints with all its digits (Go's `appendInt` with minimum width 4). -/
def formatDate (y m d : Nat) : String :=
  if y < 10000 then
    ⟨[digitChar (y / 1000 % 10), digitChar (y / 100 % 10),
      digitChar (y / 10 % 10), digitChar (y % 10), '-',
      digitChar (m / 10 % 10), digitChar (m % 10), '-',
      digitChar (d / 10 % 10), digitChar (d % 10)]⟩
  else
    ⟨Nat.toDigits 10 y ++ '-' :: digitChar (m / 10 % 10) :: digitChar (m % 10) ::
      '-' :: digitChar (d / 10 % 10) :: [digitChar (d % 10)]⟩

/-- `t.AddDate(0, 0, 1)` on a valid calendar date. -/
def addDay (y m d : Nat) : Nat × Nat × Nat :=
  if d < daysInMonth y m then (y, m, d + 1)
  else if m < 12 then (y, m + 1, 1)
  else (y + 1, 1, 1)

/-- `incrementDate` from handler.go lines 278-285: parse, add one day,
format; an unparseable date yields `""`. -/
def incrementDate (date : String) : String :=
  match parseDate date with
  | none => ""
  | some (y, m, d) => formatDate (addDay y m d).1 (addDay y m d).2.1 (addDay y m d).2.2

/-- A parseable (hence canonically formatted) calendar date triple. -/
def validDate (y m d : Nat) : Prop :=
  y ≤ 9999 ∧ 1 ≤ m ∧ m ≤ 12 ∧ 1 ≤ d ∧ d ≤ daysInMonth y m

instance (y m d : Nat) : Decidable (validDate y m d) := by
  unfold validDate; infer_instance

/-- Number of leap years strictly below `y` (proof-side ordinal helper). -/
def leapsBefore : Nat → Nat
  | 0 => 0
  | y + 1 => leapsBefore y + (if isLeap y then 1 else 0)

/-- Days in the months of year `y` strictly before month `m` (for `1 ≤ m ≤ 12`). -/
def daysBefore (y m : Nat) : Nat :=
  (match m with
   | 1 => 0 | 2 => 31 | 3 => 59 | 4 => 90 | 5 => 120 | 6 => 151
   | 7 => 181 | 8 => 212 | 9 => 243 | 10 => 273 | 11 => 304 | _ => 334)
  + (if 3 ≤ m ∧ isLeap y = true then 1 else 0)

/-- Proof-side day ordinal: strictly monotone along the calendar. -/
def dateOrd (y m d : Nat) : Nat :=
  365 * y + leapsBefore y + daysBefore y m + d

/-! ## `forwardFillStockData` (handler.go lines 191-226) -/

/-- The Go map build (lines 193-196): later entries overwrite earlier ones;
lookup of date `d`. -/
def buildMap (stockData : List StockData) : String → Option StockData :=
  fun d => stockData.foldl (fun acc b => if b.Date = d then some b else acc) none

/-- One iteration body of the fill loop (lines 204-221): emit the mapped bar
verbatim, else carry the last emitted bar forward with the current date,
else (nothing emitted yet) skip. -/
def fillStep (m : String → Option StockData) (filled : List StockData) (cur : String) :
    List StockData :=
  match m cur with
  | some data => filled ++ [data]
  | none =>
    match filled.getLast? with
    | some lastData => filled ++ [{ lastData with Date := cur }]
    | none => filled

/-- The fill loop (lines 202-223) with explicit fuel; `none` means the loop
is still running after `fuel` iterations. -/
def ffLoop (fuel : Nat) (m : String → Option StockData) (filled : List StockData)
    (cur endD : String) : Option (List StockData) :=
  if strLe cur endD then
    match fuel with
    | 0 => none
    | fuel + 1 => ffLoop fuel m (fillStep m filled cur) (incrementDate cur) endD
  else some filled

/-- `forwardFillStockData` (lines 191-226), fuel-indexed. -/
def forwardFillStockData (fuel : Nat) (stockData : List StockData)
    (startDate endDate : String) : Option (List StockData) :=
  ffLoop fuel (buildMap stockData) [] startDate endDate

/-- The sequence of dates the loop visits, with the same fuel discipline. -/
def dateWalk (fuel : Nat) (cur endD : String) : Option (List String) :=
  if strLe cur endD then
    match fuel with
    | 0 => none
    | fuel + 1 => (dateWalk fuel (incrementDate cur) endD).map (cur :: ·)
  else some []

/-- Folding the loop body over an explicit date list. -/
def processDates (m : String → Option StockData) (filled : List StockData)
    (ds : List String) : List StockData :=
  ds.foldl (fillStep m) filled

/-- The fill loop terminates on this input (for some fuel). -/
def ffTerminates (stockData : List StockData) (startDate endDate : String) : Prop :=
  ∃ fuel out, forwardFillStockData fuel stockData startDate endDate = some out

/-! ## Index composition (`Handler`, lines 99-123) -/

/-- The loop of lines 116-123 walking both series at index `i ≥ 1`; the
crypto series `btc` bounds the loop, the equity series is indexed without a
bounds check, so exhausting it is an out-of-range panic (`none`). -/
def composeLoop (init : ℚ) (rBTC rVOO : ℤ) :
    List StockData → List StockData → Option (List IndexData)
  | [], _ => some []
  | _ :: _, [] => none
  | b :: bs, v :: vs =>
    (composeLoop init rBTC rVOO bs vs).map
      (fun rest =>
        { Date := b.Date,
          AdjClose := (b.AdjClose * (rBTC : ℚ) + v.AdjClose * (rVOO : ℚ)) / init * 100 } :: rest)

/-- Lines 107-123: first point `{btc[0].Date, 100}` by definition, baseline
from both index-0 bars, then the loop; indexing an empty slice is a panic
(`none`). -/
def composeIndex (stockDataBTC stockDataVOOFF : List StockData) (rBTC rVOO : ℤ) :
    Option (List IndexData) :=
  match stockDataBTC, stockDataVOOFF with
  | b0 :: bs, v0 :: vs =>
    (composeLoop (b0.AdjClose * (rBTC : ℚ) + v0.AdjClose * (rVOO : ℚ)) rBTC rVOO bs vs).map
      (fun rest => { Date := b0.Date, AdjClose := 100 } :: rest)
  | _, _ => none

/-- Lines 99-123 with the forward-filled equity series as input: the
`stockDataBTC[len(stockDataBTC)-1]` access of line 99 (a panic on an empty
slice, modelled by `getLast? = none`) followed by the composition. -/
def handlerIndexStage (stockDataBTC stockDataVOOFF : List StockData) (rBTC rVOO : ℤ) :
    Option (List IndexData) :=
  match stockDataBTC.getLast? with
  | none => none
  | some _ => composeIndex stockDataBTC stockDataVOOFF rBTC rVOO

/-! ## Preset resolution (`Handler`, lines 57-86) -/

/-- Outcome of the symbol-token resolution. -/
inductive HandlerResult where
  | badRequest (msg : String)
  | proceed (ratioVOO ratioBTC : ℤ)
deriving DecidableEq, Repr

/-- Lines 57-86: empty check, `strings.ToUpper`, switch over the presets. -/
def resolveSymbol (symbol : String) : HandlerResult :=
  if symbol = "" then .badRequest "Symbol is required"
  else
    if toUpperGo symbol = "QUARTZ9" then .proceed 9 1
    else if toUpperGo symbol = "QUARTZ7" then .proceed 7 3
    else if toUpperGo symbol = "QUARTZ5" then .proceed 5 5
    else .badRequest "Invalid symbol"

/-! ## `PrepareSymbolJSONData` (lines 140-188) and `saveData` (lines 248-275) -/

/-- Raw payload bytes. -/
abbrev Bytes := List Nat

/-- The cache directory as a path-to-bytes association (most recent write
first). -/
abbrev FileSys := List (String × Bytes)

/-- `os.ReadFile` / `os.Stat` on the modelled file system. -/
def fsRead (fs : FileSys) (path : String) : Option Bytes :=
  match fs.find? (fun e => e.1 == path) with
  | some e => some e.2
  | none => none

/-- `saveData`'s write of the raw bytes (lines 248-275). -/
def fsWrite (fs : FileSys) (path : String) (data : Bytes) : FileSys :=
  (path, data) :: fs

/-- The snapshot key of lines 144-147: `dir + "/" + symbol + "/" + date + ".json"`. -/
def snapshotPath (cacheDir symbol date : String) : String :=
  cacheDir ++ "/" ++ symbol ++ "/" ++ date ++ ".json"

/-- Outcome of `PrepareSymbolJSONData`: a decoded series together with the
resulting cache state, or a `log.Fatal` (process termination, no response). -/
inductive PrepResult where
  | ok (series : List StockData) (fs : FileSys)
  | fatal
deriving DecidableEq

/-- `PrepareSymbolJSONData` (lines 140-188). `decode` models
`json.Unmarshal`, `fetchResult` the bytes returned by `readDataFromURL`
(`none` = network error), `writeOk` whether `saveData`'s file write
succeeds. Every Go error path is a `log.Fatal`, modelled as `.fatal`. -/
def prepareSymbolJSONData (decode : Bytes → Option (List StockData))
    (fetchResult : Option Bytes) (writeOk : Bool) (fs : FileSys)
    (cacheDir symbol date : String) : PrepResult :=
  let fullPath := snapshotPath cacheDir symbol date
  let afterFetch : Option FileSys :=
    if (fsRead fs fullPath).isSome then
      some fs
    else
      match fetchResult with
      | none => none
      | some body =>
        match decode body with
        | none => none
        | some _ => if writeOk then some (fsWrite fs fullPath body) else none
  match afterFetch with
  | none => .fatal
  | some fs2 =>
    match fsRead fs2 fullPath with
    | none => .fatal
    | some fileData =>
      match decode fileData with
      | none => .fatal
      | some stockData => .ok stockData fs2

/-! ## Order lemmas for the Go string comparison and the calendar -/

theorem listLt_nil_right (l : List Char) : listLt l [] = false := by
  cases l <;> rfl

theorem listLt_self (l : List Char) : listLt l l = false := by
  induction l with
  | nil => rfl
  | cons a as ih => simp [listLt, ih]

theorem strLe_empty (s : String) : strLe "" s = true := by
  simp [strLe, strLt, listLt_nil_right]

theorem listLt_cons (a b : Char) (as bs : List Char) :
    listLt (a :: as) (b :: bs) = if a < b then true else if b < a then false else listLt as bs := rfl

theorem listLt_trans {l₁ l₂ l₃ : List Char} (h₁ : listLt l₁ l₂ = true)
    (h₂ : listLt l₂ l₃ = true) : listLt l₁ l₃ = true := by
  induction l₁ generalizing l₂ l₃ with
  | nil =>
    cases l₃ with
    | nil => rw [listLt_nil_right] at h₂; exact absurd h₂ (by simp)
    | cons c cs => rfl
  | cons a as ih =>
    cases l₂ with
    | nil => rw [listLt_nil_right] at h₁; exact absurd h₁ (by simp)
    | cons b bs =>
      cases l₃ with
      | nil => rw [listLt_nil_right] at h₂; exact absurd h₂ (by simp)
      | cons c cs =>
        rw [listLt_cons] at h₁ h₂ ⊢
        by_cases hab : a < b
        · by_cases hbc : b < c
          · rw [if_pos (lt_trans hab hbc)]
          · by_cases hcb : c < b
            · rw [if_neg hbc, if_pos hcb] at h₂
              exact absurd h₂ (by simp)
            · have he : b = c := le_antisymm (not_lt.mp hcb) (not_lt.mp hbc)
              subst he
              rw [if_pos hab]
        · by_cases hba : b < a
          · rw [if_neg hab, if_pos hba] at h₁
            exact absurd h₁ (by simp)
          · have he : a = b := le_antisymm (not_lt.mp hba) (not_lt.mp hab)
            subst he
            rw [if_neg hab, if_neg hba] at h₁
            by_cases hac : a < c
            · rw [if_pos hac]
            · by_cases hca : c < a
              · rw [if_neg hac, if_pos hca] at h₂
                exact absurd h₂ (by simp)
              · rw [if_neg hac, if_neg hca] at h₂ ⊢
                exact ih h₁ h₂

theorem listLt_conn {l₁ l₂ : List Char} (h₁ : listLt l₁ l₂ = false)
    (h₂ : listLt l₂ l₁ = false) : l₁ = l₂ := by
  induction l₁ generalizing l₂ with
  | nil => cases l₂ with
    | nil => rfl
    | cons b bs => simp [listLt] at h₁
  | cons a as ih =>
    cases l₂ with
    | nil => simp [listLt] at h₂
    | cons b bs =>
      rw [listLt_cons] at h₁ h₂
      by_cases hab : a < b
      · rw [if_pos hab] at h₁; exact absurd h₁ (by simp)
      · by_cases hba : b < a
        · rw [if_pos hba] at h₂; exact absurd h₂ (by simp)
        · have he : a = b := le_antisymm (not_lt.mp hba) (not_lt.mp hab)
          subst he
          rw [if_neg hab, if_neg hba] at h₁ h₂
          rw [ih h₁ h₂]

theorem listLt_asymm {l₁ l₂ : List Char} (h : listLt l₁ l₂ = true) : listLt l₂ l₁ = false := by
  by_contra hc
  have hc : listLt l₂ l₁ = true := by revert hc; cases listLt l₂ l₁ <;> simp
  have := listLt_trans h hc
  rw [listLt_self] at this
  exact Bool.noConfusion this

theorem string_data_inj {s t : String} (h : s.data = t.data) : s = t := by
  cases s; cases t; exact congrArg String.mk h

theorem strLe_refl (s : String) : strLe s s = true := by
  simp [strLe, strLt, listLt_self]

theorem strLt_asymm {s t : String} (h : strLt s t = true) : strLt t s = false :=
  listLt_asymm h

theorem strLe_iff {s t : String} : strLe s t = true ↔ strLt s t = true ∨ s = t := by
  constructor
  · intro h
    rcases hst : strLt s t with _ | _
    · right
      refine string_data_inj (listLt_conn hst ?_)
      simpa [strLe, strLt] using h
    · exact Or.inl rfl
  · intro h
    rcases h with h | h
    · simp [strLe, strLt, listLt_asymm h]
    · subst h; exact strLe_refl s

theorem strLt_trans {s t u : String} (h₁ : strLt s t = true) (h₂ : strLt t u = true) :
    strLt s u = true :=
  listLt_trans h₁ h₂

theorem strLt_of_lt_of_le {s t u : String} (h₁ : strLt s t = true) (h₂ : strLe t u = true) :
    strLt s u = true := by
  rcases strLe_iff.mp h₂ with h | h
  · exact strLt_trans h₁ h
  · exact h ▸ h₁

theorem strLt_of_le_of_lt {s t u : String} (h₁ : strLe s t = true) (h₂ : strLt t u = true) :
    strLt s u = true := by
  rcases strLe_iff.mp h₁ with h | h
  · exact strLt_trans h h₂
  · exact h ▸ h₂

theorem strLe_trans {s t u : String} (h₁ : strLe s t = true) (h₂ : strLe t u = true) :
    strLe s u = true := by
  rcases strLe_iff.mp h₁ with h | h
  · exact strLe_iff.mpr (Or.inl (strLt_of_lt_of_le h h₂))
  · exact h ▸ h₂

theorem strLe_of_lt {s t : String} (h : strLt s t = true) : strLe s t = true :=
  strLe_iff.mpr (Or.inl h)

theorem strLe_of_not_lt {s t : String} (h : strLt t s = false) : strLe s t = true := by
  simp [strLe, h]

theorem not_lt_of_strLe {s t : String} (h : strLe s t = true) : strLt t s = false := by
  simpa [strLe] using h

theorem strLt_or_ge (s t : String) : strLt s t = true ∨ strLe t s = true := by
  rcases h : strLt s t with _ | _
  · exact Or.inr (strLe_of_not_lt h)
  · exact Or.inl rfl

theorem char_eq_of_toNat {a b : Char} (h : a.toNat = b.toNat) : a = b :=
  Char.eq_of_val_eq (UInt32.eq_of_toBitVec_eq (BitVec.eq_of_toNat_eq (by
    simpa [Char.toNat, UInt32.toNat] using h)))

theorem isDigit_toNat {c : Char} (h : c.isDigit = true) :
    48 ≤ c.toNat ∧ c.toNat ≤ 57 := by
  simp [Char.isDigit] at h
  exact h

theorem digitChar_toNat {n : Nat} (h : n < 10) : (digitChar n).toNat = 48 + n := by
  interval_cases n <;> rfl

theorem digitVal_digitChar {n : Nat} (h : n < 10) : digitVal (digitChar n) = some n := by
  interval_cases n <;> rfl

theorem digitVal_lt_ten {c : Char} {a : Nat} (h : digitVal c = some a) : a < 10 := by
  unfold digitVal at h
  split at h
  · rename_i hd
    obtain ⟨h1, h2⟩ := isDigit_toNat hd
    simp only [Option.some.injEq] at h
    omega
  · exact absurd h (by simp)

theorem digitChar_digitVal {c : Char} {a : Nat} (h : digitVal c = some a) :
    digitChar a = c := by
  unfold digitVal at h
  split at h
  · rename_i hd
    obtain ⟨h1, h2⟩ := isDigit_toNat hd
    simp only [Option.some.injEq] at h
    subst h
    refine char_eq_of_toNat ?_
    rw [digitChar_toNat (by omega)]
    omega
  · exact absurd h (by simp)

theorem digitChar_lt_iff {a b : Nat} (ha : a < 10) (hb : b < 10) :
    (digitChar a < digitChar b) ↔ a < b := by
  interval_cases a <;> interval_cases b <;> simp [digitChar]

theorem digitChar_inj {a b : Nat} (ha : a < 10) (hb : b < 10) :
    digitChar a = digitChar b ↔ a = b := by
  interval_cases a <;> interval_cases b <;> simp [digitChar]

theorem daysInMonth_ge (y m : Nat) : 28 ≤ daysInMonth y m := by
  unfold daysInMonth
  split <;> first | omega | (split <;> omega)

theorem daysInMonth_le (y m : Nat) : daysInMonth y m ≤ 31 := by
  unfold daysInMonth
  split <;> first | omega | (split <;> omega)

theorem data_mk (l : List Char) : (String.mk l).data = l := rfl

theorem parse_formatDate {y m d : Nat} (h : validDate y m d) :
    parseDate (formatDate y m d) = some (y, m, d) := by
  obtain ⟨hy, hm1, hm2, hd1, hd2⟩ := h
  have hylt : y < 10000 := by omega
  have hmlt : m < 100 := by omega
  have hdlt : d < 100 := by have := daysInMonth_le y m; omega
  have h10 : ∀ k : Nat, k % 10 < 10 := fun k => Nat.mod_lt _ (by norm_num)
  rw [formatDate, if_pos hylt]
  rw [parseDate]
  simp only [data_mk]
  rw [digitVal_digitChar (h10 _), digitVal_digitChar (h10 _), digitVal_digitChar (h10 _),
      digitVal_digitChar (h10 _), digitVal_digitChar (h10 _), digitVal_digitChar (h10 _),
      digitVal_digitChar (h10 _), digitVal_digitChar (h10 _)]
  simp only []
  rw [if_pos ⟨trivial, trivial⟩]
  have ey : ((y / 1000 % 10 * 10 + y / 100 % 10) * 10 + y / 10 % 10) * 10 + y % 10 = y := by
    omega
  have em : m / 10 % 10 * 10 + m % 10 = m := by omega
  have ed : d / 10 % 10 * 10 + d % 10 = d := by omega
  simp only [ey, em, ed]
  rw [if_pos ⟨hm1, hm2, hd1, hd2⟩]

theorem formatDate_parse {s : String} {y m d : Nat} (h : parseDate s = some (y, m, d)) :
    s = formatDate y m d ∧ validDate y m d := by
  unfold parseDate at h
  split at h
  case h_2 => exact absurd h (by simp)
  case h_1 y3 y2 y1 y0 s1 m1 m0 s2 d1 d0 heq =>
    split at h
    case h_2 => exact absurd h (by simp)
    case h_1 a3 a2 a1 a0 b1 b0 c1 c0 e3 e2 e1 e0 f1 f0 g1 g0 =>
      split at h
      case isFalse => exact absurd h (by simp)
      case isTrue hdash =>
        dsimp only at h
        split at h
        case isFalse => exact absurd h (by simp)
        case isTrue hrange =>
          simp only [Option.some.injEq, Prod.mk.injEq] at h
          obtain ⟨hyv, hmv, hdv⟩ := h
          subst hyv; subst hmv; subst hdv
          have ha3 := digitVal_lt_ten e3
          have ha2 := digitVal_lt_ten e2
          have ha1 := digitVal_lt_ten e1
          have ha0 := digitVal_lt_ten e0
          have hb1 := digitVal_lt_ten f1
          have hb0 := digitVal_lt_ten f0
          have hc1 := digitVal_lt_ten g1
          have hc0 := digitVal_lt_ten g0
          have hylt : ((a3 * 10 + a2) * 10 + a1) * 10 + a0 < 10000 := by omega
          refine ⟨?_, by omega, hrange.1, hrange.2.1, hrange.2.2.1, hrange.2.2.2⟩
          apply string_data_inj
          rw [heq, formatDate, if_pos hylt, data_mk]
          have d3 : (((a3 * 10 + a2) * 10 + a1) * 10 + a0) / 1000 % 10 = a3 := by omega
          have d2 : (((a3 * 10 + a2) * 10 + a1) * 10 + a0) / 100 % 10 = a2 := by omega
          have d1x : (((a3 * 10 + a2) * 10 + a1) * 10 + a0) / 10 % 10 = a1 := by omega
          have d0x : (((a3 * 10 + a2) * 10 + a1) * 10 + a0) % 10 = a0 := by omega
          have m1x : (b1 * 10 + b0) / 10 % 10 = b1 := by omega
          have m0x : (b1 * 10 + b0) % 10 = b0 := by omega
          have dd1 : (c1 * 10 + c0) / 10 % 10 = c1 := by omega
          have dd0 : (c1 * 10 + c0) % 10 = c0 := by omega
          rw [d3, d2, d1x, d0x, m1x, m0x, dd1, dd0,
              digitChar_digitVal e3, digitChar_digitVal e2, digitChar_digitVal e1,
              digitChar_digitVal e0, digitChar_digitVal f1, digitChar_digitVal f0,
              digitChar_digitVal g1, digitChar_digitVal g0, hdash.1, hdash.2]

theorem leapsBefore_succ (y : Nat) :
    leapsBefore (y + 1) = leapsBefore y + (if isLeap y then 1 else 0) := rfl

theorem daysBefore_succ (y m : Nat) (h1 : 1 ≤ m) (h2 : m ≤ 11) :
    daysBefore y (m + 1) = daysBefore y m + daysInMonth y m := by
  interval_cases m <;> cases hL : isLeap y <;> simp [daysBefore, daysInMonth, hL]

theorem daysBefore_mono (y : Nat) {m1 m2 : Nat} (h1 : 1 ≤ m1) (h2 : m1 ≤ m2) (h3 : m2 ≤ 12) :
    daysBefore y m1 ≤ daysBefore y m2 := by
  induction m2 with
  | zero => omega
  | succ k ih =>
    rcases Nat.lt_or_ge m1 (k + 1) with hlt | hge
    · have hk : daysBefore y m1 ≤ daysBefore y k := ih (by omega) (by omega)
      have := daysBefore_succ y k (by omega) (by omega)
      have := daysInMonth_ge y k
      omega
    · have : m1 = k + 1 := by omega
      subst this
      omega

theorem dayOfYear_ge {y m d : Nat} (h : validDate y m d) : 1 ≤ daysBefore y m + d := by
  obtain ⟨-, h1, h2, h3, h4⟩ := h
  omega

theorem dayOfYear_le {y m d : Nat} (h : validDate y m d) :
    daysBefore y m + d ≤ 365 + (if isLeap y then 1 else 0) := by
  obtain ⟨-, h1, h2, h3, h4⟩ := h
  have hle : daysBefore y m + daysInMonth y m ≤ 365 + (if isLeap y then 1 else 0) := by
    interval_cases m <;> cases hL : isLeap y <;> simp [daysBefore, daysInMonth, hL]
  omega

theorem ord_addDay {y m d : Nat} (h : validDate y m d) :
    dateOrd (addDay y m d).1 (addDay y m d).2.1 (addDay y m d).2.2 = dateOrd y m d + 1 := by
  obtain ⟨hy, h1, h2, h3, h4⟩ := h
  unfold addDay
  by_cases hd : d < daysInMonth y m
  · rw [if_pos hd]
    show dateOrd y m (d + 1) = dateOrd y m d + 1
    simp only [dateOrd]
    omega
  · rw [if_neg hd]
    have hdim : d = daysInMonth y m := by omega
    by_cases hm : m < 12
    · rw [if_pos hm]
      show dateOrd y (m + 1) 1 = dateOrd y m d + 1
      have := daysBefore_succ y m h1 (by omega)
      simp only [dateOrd]
      omega
    · rw [if_neg hm]
      have hm12 : m = 12 := by omega
      subst hm12
      have hd31 : d = 31 := by
        have : daysInMonth y 12 = 31 := rfl
        omega
      subst hd31
      show dateOrd (y + 1) 1 1 = dateOrd y 12 31 + 1
      simp only [dateOrd, leapsBefore_succ]
      have h334 : daysBefore y 12 = 334 + (if 3 ≤ 12 ∧ isLeap y = true then 1 else 0) := rfl
      have h1' : daysBefore (y + 1) 1 = 0 := by
        cases hL : isLeap (y + 1) <;> simp [daysBefore, hL]
      rw [h1']
      cases hL : isLeap y <;> simp [hL] at h334 ⊢ <;> omega

theorem validDate_addDay {y m d : Nat} (h : validDate y m d) (htop : (y, m, d) ≠ (9999, 12, 31)) :
    validDate (addDay y m d).1 (addDay y m d).2.1 (addDay y m d).2.2 := by
  obtain ⟨hy, h1, h2, h3, h4⟩ := h
  unfold addDay
  by_cases hd : d < daysInMonth y m
  · rw [if_pos hd]
    show validDate y m (d + 1)
    exact ⟨hy, h1, h2, by omega, by omega⟩
  · rw [if_neg hd]
    by_cases hm : m < 12
    · rw [if_pos hm]
      show validDate y (m + 1) 1
      have := daysInMonth_ge y (m + 1)
      exact ⟨hy, by omega, by omega, by omega, by omega⟩
    · rw [if_neg hm]
      have hm12 : m = 12 := by omega
      subst hm12
      have hd31 : d = 31 := by
        have : daysInMonth y 12 = 31 := rfl
        omega
      subst hd31
      have hy' : y ≠ 9999 := fun hc => htop (by rw [hc])
      show validDate (y + 1) 1 1
      have := daysInMonth_ge (y + 1) 1
      exact ⟨by omega, by omega, by omega, by omega, by omega⟩

theorem leapsBefore_mono {y1 y2 : Nat} (h : y1 ≤ y2) : leapsBefore y1 ≤ leapsBefore y2 := by
  induction y2 with
  | zero =>
    have hz : y1 = 0 := by omega
    subst hz
    exact Nat.le_refl _
  | succ k ih =>
    rcases Nat.lt_or_ge y1 (k + 1) with hlt | hge
    · have := ih (by omega)
      rw [leapsBefore_succ]
      omega
    · have he : y1 = k + 1 := by omega
      subst he
      exact Nat.le_refl _

theorem lex_lt_ord {y1 m1 d1 y2 m2 d2 : Nat} (h1 : validDate y1 m1 d1)
    (h2 : validDate y2 m2 d2)
    (hlex : y1 < y2 ∨ (y1 = y2 ∧ (m1 < m2 ∨ (m1 = m2 ∧ d1 < d2)))) :
    dateOrd y1 m1 d1 < dateOrd y2 m2 d2 := by
  have hge1 := dayOfYear_ge h1
  have hle1 := dayOfYear_le h1
  have hge2 := dayOfYear_ge h2
  have hle2 := dayOfYear_le h2
  rcases hlex with hy | ⟨hy, hmd⟩
  · have hmono : leapsBefore (y1 + 1) ≤ leapsBefore y2 := leapsBefore_mono (by omega)
    have hsucc := leapsBefore_succ y1
    simp only [dateOrd]
    cases hL : isLeap y1 <;> simp [hL] at hsucc hle1 <;> omega
  · subst hy
    simp only [dateOrd]
    rcases hmd with hm | ⟨hm, hd⟩
    · have hstep := daysBefore_succ y1 m1 h1.2.1 (by have := h2.2.2.1; omega)
      have hmono : daysBefore y1 (m1 + 1) ≤ daysBefore y1 m2 :=
        daysBefore_mono y1 (by omega) (by omega) h2.2.2.1
      have hd1 := h1.2.2.2.2
      have hd2 := h2.2.2.2.1
      omega
    · subst hm
      omega

theorem ord_lt_iff {y1 m1 d1 y2 m2 d2 : Nat} (h1 : validDate y1 m1 d1)
    (h2 : validDate y2 m2 d2) :
    dateOrd y1 m1 d1 < dateOrd y2 m2 d2 ↔
      (y1 < y2 ∨ (y1 = y2 ∧ (m1 < m2 ∨ (m1 = m2 ∧ d1 < d2)))) := by
  constructor
  · intro hord
    have htri : (y1 = y2 ∧ m1 = m2 ∧ d1 = d2) ∨
        (y1 < y2 ∨ (y1 = y2 ∧ (m1 < m2 ∨ (m1 = m2 ∧ d1 < d2)))) ∨
        (y2 < y1 ∨ (y2 = y1 ∧ (m2 < m1 ∨ (m2 = m1 ∧ d2 < d1)))) := by omega
    rcases htri with ⟨e1, e2, e3⟩ | h | h
    · subst e1; subst e2; subst e3; omega
    · exact h
    · have := lex_lt_ord h2 h1 h
      omega
  · exact lex_lt_ord h1 h2

theorem listLt_nil : listLt [] [] = false := rfl

theorem listLt_cons_same (c : Char) (as bs : List Char) :
    listLt (c :: as) (c :: bs) = listLt as bs := by
  simp [listLt_cons]

theorem listLt_cons_digit {a b : Nat} (ha : a < 10) (hb : b < 10) (as bs : List Char) :
    listLt (digitChar a :: as) (digitChar b :: bs) =
      if a < b then true else if b < a then false else listLt as bs := by
  rw [listLt_cons]
  by_cases hab : a < b
  · rw [if_pos ((digitChar_lt_iff ha hb).mpr hab), if_pos hab]
  · rw [if_neg (fun hc => hab ((digitChar_lt_iff ha hb).mp hc)), if_neg hab]
    by_cases hba : b < a
    · rw [if_pos ((digitChar_lt_iff hb ha).mpr hba), if_pos hba]
    · rw [if_neg (fun hc => hba ((digitChar_lt_iff hb ha).mp hc)), if_neg hba]

theorem listLt_nil_iff : (listLt [] [] = true) ↔ False := by
  simp [listLt]

theorem listLt_cons_digit_iff {a b : Nat} (ha : a < 10) (hb : b < 10) {as bs : List Char} :
    (listLt (digitChar a :: as) (digitChar b :: bs) = true) ↔
      (a < b ∨ (a = b ∧ listLt as bs = true)) := by
  rw [listLt_cons]
  by_cases hab : a < b
  · rw [if_pos ((digitChar_lt_iff ha hb).mpr hab)]
    simp [hab]
  · rw [if_neg (fun hc => hab ((digitChar_lt_iff ha hb).mp hc))]
    by_cases hba : b < a
    · rw [if_pos ((digitChar_lt_iff hb ha).mpr hba)]
      simp
      omega
    · rw [if_neg (fun hc => hba ((digitChar_lt_iff hb ha).mp hc))]
      have he : a = b := by omega
      simp [he]

theorem listLt_cons_same_iff (c : Char) (as bs : List Char) :
    (listLt (c :: as) (c :: bs) = true) ↔ (listLt as bs = true) := by
  rw [listLt_cons_same]

theorem digits2_lex_iff {x y : Nat} (hx : x < 100) (hy : y < 100) {P : Prop} :
    (x / 10 % 10 < y / 10 % 10 ∨
      (x / 10 % 10 = y / 10 % 10 ∧ (x % 10 < y % 10 ∨ (x % 10 = y % 10 ∧ P)))) ↔
      (x < y ∨ (x = y ∧ P)) := by
  have hx' : x = x / 10 % 10 * 10 + x % 10 := by omega
  have hy' : y = y / 10 % 10 * 10 + y % 10 := by omega
  by_cases hP : P <;> simp [hP] <;> omega

theorem digits4_lex_iff {x y : Nat} (hx : x < 10000) (hy : y < 10000) {P : Prop} :
    (x / 1000 % 10 < y / 1000 % 10 ∨
      (x / 1000 % 10 = y / 1000 % 10 ∧
        (x / 100 % 10 < y / 100 % 10 ∨
          (x / 100 % 10 = y / 100 % 10 ∧
            (x / 10 % 10 < y / 10 % 10 ∨
              (x / 10 % 10 = y / 10 % 10 ∧ (x % 10 < y % 10 ∨ (x % 10 = y % 10 ∧ P)))))))) ↔
      (x < y ∨ (x = y ∧ P)) := by
  have hx' : x = x / 1000 % 10 * 1000 + x / 100 % 10 * 100 + x / 10 % 10 * 10 + x % 10 := by
    omega
  have hy' : y = y / 1000 % 10 * 1000 + y / 100 % 10 * 100 + y / 10 % 10 * 10 + y % 10 := by
    omega
  by_cases hP : P <;> simp [hP] <;> omega

theorem formatDate_lt_iff {y1 m1 d1 y2 m2 d2 : Nat} (h1 : validDate y1 m1 d1)
    (h2 : validDate y2 m2 d2) :
    strLt (formatDate y1 m1 d1) (formatDate y2 m2 d2) = true ↔
      dateOrd y1 m1 d1 < dateOrd y2 m2 d2 := by
  obtain ⟨ha1, hb1, hc1, hd1x, he1⟩ := id h1
  obtain ⟨ha2, hb2, hc2, hd2x, he2⟩ := id h2
  have hy1 : y1 < 10000 := by omega
  have hy2 : y2 < 10000 := by omega
  have hm1 : m1 < 100 := by omega
  have hm2 : m2 < 100 := by omega
  have hdl1 : d1 < 100 := by have := daysInMonth_le y1 m1; omega
  have hdl2 : d2 < 100 := by have := daysInMonth_le y2 m2; omega
  have h10 : ∀ k : Nat, k % 10 < 10 := fun k => Nat.mod_lt _ (by norm_num)
  rw [strLt, formatDate, if_pos hy1, formatDate, if_pos hy2, data_mk, data_mk]
  rw [listLt_cons_digit_iff (h10 _) (h10 _)]
  rw [listLt_cons_digit_iff (h10 _) (h10 _)]
  rw [listLt_cons_digit_iff (h10 _) (h10 _)]
  rw [listLt_cons_digit_iff (h10 _) (h10 _)]
  rw [listLt_cons_same_iff]
  rw [listLt_cons_digit_iff (h10 _) (h10 _)]
  rw [listLt_cons_digit_iff (h10 _) (h10 _)]
  rw [listLt_cons_same_iff]
  rw [listLt_cons_digit_iff (h10 _) (h10 _)]
  rw [listLt_cons_digit_iff (h10 _) (h10 _)]
  rw [listLt_nil_iff, ord_lt_iff h1 h2]
  rw [digits2_lex_iff hdl1 hdl2, digits2_lex_iff hm1 hm2, digits4_lex_iff hy1 hy2]
  simp

theorem formatDate_le_iff {y1 m1 d1 y2 m2 d2 : Nat} (h1 : validDate y1 m1 d1)
    (h2 : validDate y2 m2 d2) :
    strLe (formatDate y1 m1 d1) (formatDate y2 m2 d2) = true ↔
      dateOrd y1 m1 d1 ≤ dateOrd y2 m2 d2 := by
  rw [strLe, Bool.not_eq_true']
  constructor
  · intro h
    rcases Nat.lt_or_ge (dateOrd y2 m2 d2) (dateOrd y1 m1 d1) with hlt | hge
    · rw [(formatDate_lt_iff h2 h1).mpr hlt] at h
      exact absurd h (by simp)
    · omega
  · intro h
    rcases hlt : strLt (formatDate y2 m2 d2) (formatDate y1 m1 d1) with _ | _
    · rfl
    · have := (formatDate_lt_iff h2 h1).mp hlt
      omega

theorem ord_le_top {y m d : Nat} (h : validDate y m d) :
    dateOrd y m d ≤ dateOrd 9999 12 31 := by
  obtain ⟨h1, h2, h3, h4, h5⟩ := id h
  have hle := daysInMonth_le y m
  by_cases he : y = 9999 ∧ m = 12 ∧ d = 31
  · obtain ⟨e1, e2, e3⟩ := he
    subst e1; subst e2; subst e3
    exact Nat.le_refl _
  · have hvt : validDate 9999 12 31 := by decide
    refine Nat.le_of_lt (lex_lt_ord h hvt ?_)
    omega

theorem incrementDate_parse {s : String} {y m d : Nat} (h : parseDate s = some (y, m, d)) :
    incrementDate s = formatDate (addDay y m d).1 (addDay y m d).2.1 (addDay y m d).2.2 := by
  unfold incrementDate
  rw [h]

theorem incrementDate_unparseable {s : String} (h : parseDate s = none) :
    incrementDate s = "" := by
  unfold incrementDate
  rw [h]

theorem parseDate_empty : parseDate "" = none := rfl

theorem parse_incrementDate {s : String} {y m d : Nat} (h : parseDate s = some (y, m, d))
    (htop : ¬(y = 9999 ∧ m = 12 ∧ d = 31)) :
    parseDate (incrementDate s) =
      some ((addDay y m d).1, (addDay y m d).2.1, (addDay y m d).2.2) ∧
    strLt s (incrementDate s) = true ∧
    dateOrd (addDay y m d).1 (addDay y m d).2.1 (addDay y m d).2.2 = dateOrd y m d + 1 := by
  obtain ⟨hfmt, hval⟩ := formatDate_parse h
  have htop' : (y, m, d) ≠ ((9999 : Nat), (12 : Nat), (31 : Nat)) := by
    intro hc
    apply htop
    obtain ⟨e1, e2⟩ := Prod.mk.injEq _ _ _ _ ▸ hc
    exact ⟨e1, congrArg Prod.fst e2, congrArg Prod.snd e2⟩
  have hval' := validDate_addDay hval htop'
  have hord := ord_addDay hval
  refine ⟨?_, ?_, hord⟩
  · rw [incrementDate_parse h]
    exact parse_formatDate hval'
  · rw [incrementDate_parse h, hfmt]
    exact (formatDate_lt_iff hval hval').mpr (by omega)

theorem parse_incrementDate_top {s : String} (h : parseDate s = some (9999, 12, 31)) :
    parseDate (incrementDate s) = none := by
  rw [incrementDate_parse h]
  rfl

theorem dateWalk_zero (cur e : String) :
    dateWalk 0 cur e = if strLe cur e then none else some [] := rfl

theorem dateWalk_succ (fuel : Nat) (cur e : String) :
    dateWalk (fuel + 1) cur e =
      if strLe cur e then (dateWalk fuel (incrementDate cur) e).map (cur :: ·)
      else some [] := rfl

theorem dateWalk_none {e : String} (fuel : Nat) {cur : String} (hp : parseDate cur = none)
    (hle : strLe cur e = true) : dateWalk fuel cur e = none := by
  induction fuel generalizing cur with
  | zero => rw [dateWalk_zero, if_pos hle]
  | succ k ih =>
    rw [dateWalk_succ, if_pos hle, incrementDate_unparseable hp,
        ih parseDate_empty (strLe_empty e)]
    rfl

theorem dateWalk_stop {fuel : Nat} {cur e : String} (h : strLe cur e = false) :
    dateWalk fuel cur e = some [] := by
  cases fuel with
  | zero => rw [dateWalk_zero, if_neg (by simp [h])]
  | succ k => rw [dateWalk_succ, if_neg (by simp [h])]

theorem dateWalk_le {e : String} {fuel : Nat} {cur : String} {ds : List String}
    (h : dateWalk fuel cur e = some ds) : ∀ x ∈ ds, strLe x e = true := by
  induction fuel generalizing cur ds with
  | zero =>
    rw [dateWalk_zero] at h
    split at h
    · exact absurd h (by simp)
    · simp only [Option.some.injEq] at h
      subst h
      intro x hx
      exact absurd hx (by simp)
  | succ k ih =>
    rw [dateWalk_succ] at h
    split at h
    case isTrue hle =>
      cases hw : dateWalk k (incrementDate cur) e with
      | none => rw [hw] at h; exact absurd h (by simp)
      | some ds' =>
        rw [hw] at h
        simp only [Option.map_some', Option.some.injEq] at h
        subst h
        intro x hx
        rcases List.mem_cons.mp hx with hx | hx
        · subst hx; exact hle
        · exact ih hw x hx
    case isFalse =>
      simp only [Option.some.injEq] at h
      subst h
      intro x hx
      exact absurd hx (by simp)

theorem dateWalk_lb {e : String} {fuel : Nat} {cur : String} {ds : List String}
    (h : dateWalk fuel cur e = some ds) : ∀ x ∈ ds, strLe cur x = true := by
  induction fuel generalizing cur ds with
  | zero =>
    rw [dateWalk_zero] at h
    split at h
    · exact absurd h (by simp)
    · simp only [Option.some.injEq] at h
      subst h
      intro x hx
      exact absurd hx (by simp)
  | succ k ih =>
    rw [dateWalk_succ] at h
    split at h
    case isFalse =>
      simp only [Option.some.injEq] at h
      subst h
      intro x hx
      exact absurd hx (by simp)
    case isTrue hle =>
      cases hw : dateWalk k (incrementDate cur) e with
      | none => rw [hw] at h; exact absurd h (by simp)
      | some ds' =>
        rw [hw] at h
        simp only [Option.map_some', Option.some.injEq] at h
        subst h
        intro x hx
        rcases List.mem_cons.mp hx with hx | hx
        · subst hx; exact strLe_refl x
        · -- x is in the tail walk starting at incrementDate cur
          rcases hp : parseDate cur with _ | ⟨⟨y, m, d⟩⟩
          · rw [incrementDate_unparseable hp,
                dateWalk_none k parseDate_empty (strLe_empty e)] at hw
            exact absurd hw (by simp)
          · by_cases htop : y = 9999 ∧ m = 12 ∧ d = 31
            · obtain ⟨e1, e2, e3⟩ := htop
              subst e1; subst e2; subst e3
              have hpn := parse_incrementDate_top hp
              rcases hle2 : strLe (incrementDate cur) e with _ | _
              · rw [dateWalk_stop hle2] at hw
                simp only [Option.some.injEq] at hw
                subst hw
                exact absurd hx (by simp)
              · rw [dateWalk_none k hpn hle2] at hw
                exact absurd hw (by simp)
            · obtain ⟨hpi, hlt, -⟩ := parse_incrementDate hp htop
              exact strLe_trans (strLe_of_lt hlt) (ih hw x hx)

theorem dateWalk_pairwise {e : String} {fuel : Nat} {cur : String} {ds : List String}
    (h : dateWalk fuel cur e = some ds) :
    List.Pairwise (fun a b => strLt a b = true) ds := by
  induction fuel generalizing cur ds with
  | zero =>
    rw [dateWalk_zero] at h
    split at h
    · exact absurd h (by simp)
    · simp only [Option.some.injEq] at h
      subst h
      exact List.Pairwise.nil
  | succ k ih =>
    rw [dateWalk_succ] at h
    split at h
    case isFalse =>
      simp only [Option.some.injEq] at h
      subst h
      exact List.Pairwise.nil
    case isTrue hle =>
      cases hw : dateWalk k (incrementDate cur) e with
      | none => rw [hw] at h; exact absurd h (by simp)
      | some ds' =>
        rw [hw] at h
        simp only [Option.map_some', Option.some.injEq] at h
        subst h
        refine List.pairwise_cons.mpr ⟨?_, ih hw⟩
        intro x hx
        rcases hp : parseDate cur with _ | ⟨⟨y, m, d⟩⟩
        · rw [incrementDate_unparseable hp,
              dateWalk_none k parseDate_empty (strLe_empty e)] at hw
          exact absurd hw (by simp)
        · by_cases htop : y = 9999 ∧ m = 12 ∧ d = 31
          · obtain ⟨e1, e2, e3⟩ := htop
            subst e1; subst e2; subst e3
            have hpn := parse_incrementDate_top hp
            rcases hle2 : strLe (incrementDate cur) e with _ | _
            · rw [dateWalk_stop hle2] at hw
              simp only [Option.some.injEq] at hw
              subst hw
              exact absurd hx (by simp)
            · rw [dateWalk_none k hpn hle2] at hw
              exact absurd hw (by simp)
          · obtain ⟨hpi, hlt, -⟩ := parse_incrementDate hp htop
            exact strLt_of_lt_of_le hlt (dateWalk_lb hw x hx)

theorem dateWalk_complete {e : String} {fuel : Nat} {cur : String} {ds : List String}
    {x : String} (h : dateWalk fuel cur e = some ds)
    (hcur : (parseDate cur).isSome) (hx : (parseDate x).isSome)
    (h1 : strLe cur x = true) (h2 : strLe x e = true) : x ∈ ds := by
  induction fuel generalizing cur ds with
  | zero =>
    rw [dateWalk_zero, if_pos (strLe_trans h1 h2)] at h
    exact absurd h (by simp)
  | succ k ih =>
    rw [dateWalk_succ, if_pos (strLe_trans h1 h2)] at h
    cases hw : dateWalk k (incrementDate cur) e with
    | none => rw [hw] at h; exact absurd h (by simp)
    | some ds' =>
      rw [hw] at h
      simp only [Option.map_some', Option.some.injEq] at h
      subst h
      by_cases hxc : x = cur
      · subst hxc; exact List.mem_cons_self x ds'
      · have hltx : strLt cur x = true := by
          rcases strLe_iff.mp h1 with hlt | heq
          · exact hlt
          · exact absurd heq.symm hxc
        rcases hpc : parseDate cur with _ | ⟨⟨y, m, d⟩⟩
        · rw [hpc] at hcur; exact absurd hcur (by simp)
        · rcases hpx : parseDate x with _ | ⟨⟨yx, mx, dx⟩⟩
          · rw [hpx] at hx; exact absurd hx (by simp)
          · obtain ⟨hfc, hvc⟩ := formatDate_parse hpc
            obtain ⟨hfx, hvx⟩ := formatDate_parse hpx
            have hordlt : dateOrd y m d < dateOrd yx mx dx := by
              refine (formatDate_lt_iff hvc hvx).mp ?_
              rw [← hfc, ← hfx]
              exact hltx
            by_cases htop : y = 9999 ∧ m = 12 ∧ d = 31
            · obtain ⟨e1, e2, e3⟩ := htop
              subst e1; subst e2; subst e3
              have := ord_le_top hvx
              omega
            · obtain ⟨hpi, hlti, hordi⟩ := parse_incrementDate hpc htop
              have hvi := (formatDate_parse hpi).2
              have hfi := (formatDate_parse hpi).1
              have hlei : strLe (incrementDate cur) x = true := by
                rw [hfi, hfx]
                refine (formatDate_le_iff hvi hvx).mpr ?_
                omega
              exact List.mem_cons_of_mem cur (ih hw (by rw [hpi]; rfl) hlei)

theorem ffLoop_zero (m : String → Option StockData) (filled : List StockData) (cur e : String) :
    ffLoop 0 m filled cur e = if strLe cur e then none else some filled := rfl

theorem ffLoop_succ (fuel : Nat) (m : String → Option StockData) (filled : List StockData)
    (cur e : String) :
    ffLoop (fuel + 1) m filled cur e =
      if strLe cur e then ffLoop fuel m (fillStep m filled cur) (incrementDate cur) e
      else some filled := rfl

theorem processDates_nil (m : String → Option StockData) (filled : List StockData) :
    processDates m filled [] = filled := rfl

theorem processDates_cons (m : String → Option StockData) (filled : List StockData)
    (d : String) (ds : List String) :
    processDates m filled (d :: ds) = processDates m (fillStep m filled d) ds := rfl

theorem processDates_append (m : String → Option StockData) (filled : List StockData)
    (ds₁ ds₂ : List String) :
    processDates m filled (ds₁ ++ ds₂) = processDates m (processDates m filled ds₁) ds₂ :=
  List.foldl_append _ _ _ _

theorem ffLoop_eq (fuel : Nat) (m : String → Option StockData) (filled : List StockData)
    (cur e : String) :
    ffLoop fuel m filled cur e = (dateWalk fuel cur e).map (processDates m filled) := by
  induction fuel generalizing filled cur with
  | zero =>
    rw [ffLoop_zero, dateWalk_zero]
    by_cases h : strLe cur e = true
    · rw [if_pos h, if_pos h]; rfl
    · rw [if_neg h, if_neg h]; rfl
  | succ k ih =>
    rw [ffLoop_succ, dateWalk_succ]
    by_cases h : strLe cur e = true
    · rw [if_pos h, if_pos h, ih]
      cases hw : dateWalk k (incrementDate cur) e with
      | none => rfl
      | some ds => rfl
    · rw [if_neg h, if_neg h]; rfl

theorem buildMap_aux {d : String} {l : List StockData} {acc : Option StockData} {b : StockData}
    (h : l.foldl (fun acc x => if x.Date = d then some x else acc) acc = some b) :
    (b.Date = d ∧ b ∈ l) ∨ acc = some b := by
  induction l generalizing acc with
  | nil => exact Or.inr h
  | cons a l ih =>
    rw [List.foldl_cons] at h
    rcases ih h with ⟨h1, h2⟩ | h1
    · exact Or.inl ⟨h1, List.mem_cons_of_mem a h2⟩
    · by_cases ha : a.Date = d
      · rw [if_pos ha] at h1
        simp only [Option.some.injEq] at h1
        subst h1
        exact Or.inl ⟨ha, List.mem_cons_self a l⟩
      · rw [if_neg ha] at h1
        exact Or.inr h1

theorem buildMap_eq_some {sd : List StockData} {d : String} {b : StockData}
    (h : buildMap sd d = some b) : b.Date = d ∧ b ∈ sd := by
  rcases buildMap_aux h with h1 | h1
  · exact h1
  · exact absurd h1 (by simp)

theorem buildMap_isSome_aux (d : String) (l : List StockData) (acc : Option StockData) :
    (l.foldl (fun acc x => if x.Date = d then some x else acc) acc).isSome =
      (acc.isSome || l.any (fun x => x.Date == d)) := by
  induction l generalizing acc with
  | nil => simp
  | cons a l ih =>
    rw [List.foldl_cons, ih, List.any_cons]
    by_cases ha : a.Date = d
    · simp [ha]
    · have hbeq : (a.Date == d) = false := by
        simp [ha]
      rw [if_neg ha, hbeq, Bool.false_or]

theorem buildMap_isSome_iff {sd : List StockData} {d : String} :
    (buildMap sd d).isSome = true ↔ ∃ b ∈ sd, b.Date = d := by
  rw [buildMap, buildMap_isSome_aux]
  simp [List.any_eq_true, beq_iff_eq]

theorem buildMap_eq_none {sd : List StockData} {d : String} (h : ¬∃ b ∈ sd, b.Date = d) :
    buildMap sd d = none := by
  rcases hb : buildMap sd d with _ | b
  · rfl
  · exact absurd (buildMap_isSome_iff.mp (by rw [hb]; rfl)) h

theorem buildMap_nodup {sd : List StockData} {b : StockData}
    (hnd : (sd.map StockData.Date).Nodup) (hb : b ∈ sd) :
    buildMap sd b.Date = some b := by
  induction sd with
  | nil => exact absurd hb (by simp)
  | cons a l ih =>
    rw [List.map_cons, List.nodup_cons] at hnd
    obtain ⟨hna, hnl⟩ := hnd
    rcases List.mem_cons.mp hb with hb | hb
    · subst hb
      show List.foldl _ (if b.Date = b.Date then some b else none) l = some b
      rw [if_pos rfl]
      have hno : ∀ x ∈ l, x.Date ≠ b.Date := by
        intro x hx hc
        exact hna (hc ▸ List.mem_map_of_mem StockData.Date hx)
      clear ih hb hna hnl
      induction l with
      | nil => rfl
      | cons c l ihl =>
        rw [List.foldl_cons, if_neg (hno c (List.mem_cons_self c l))]
        exact ihl (fun x hx => hno x (List.mem_cons_of_mem c hx))
    · have hne : a.Date ≠ b.Date := by
        intro hc
        exact hna (hc ▸ List.mem_map_of_mem StockData.Date hb)
      show List.foldl _ (if a.Date = b.Date then some a else none) l = some b
      rw [if_neg hne]
      exact ih hnl hb

theorem fillStep_map_date {m : String → Option StockData}
    (hm : ∀ d b, m d = some b → b.Date = d) (filled : List StockData) (d : String)
    (hne : filled ≠ []) :
    (fillStep m filled d).map StockData.Date = filled.map StockData.Date ++ [d] ∧
      fillStep m filled d ≠ [] := by
  unfold fillStep
  cases hmd : m d with
  | some bar =>
    rw [List.map_append]
    exact ⟨by rw [List.map_singleton, hm d bar hmd], by simp⟩
  | none =>
    cases hl : filled.getLast? with
    | none => exact absurd (List.getLast?_eq_none_iff.mp hl) hne
    | some lastData =>
      rw [List.map_append]
      exact ⟨by rw [List.map_singleton], by simp⟩

theorem processDates_dates_of_ne_nil {m : String → Option StockData}
    (hm : ∀ d b, m d = some b → b.Date = d) (ds : List String) :
    ∀ filled : List StockData, filled ≠ [] →
      (processDates m filled ds).map StockData.Date = filled.map StockData.Date ++ ds := by
  induction ds with
  | nil => intro filled _; rw [processDates_nil, List.append_nil]
  | cons d ds ih =>
    intro filled hne
    rw [processDates_cons]
    obtain ⟨hmap, hne'⟩ := fillStep_map_date hm filled d hne
    rw [ih _ hne', hmap, List.append_assoc]
    rfl

theorem processDates_dates {m : String → Option StockData}
    (hm : ∀ d b, m d = some b → b.Date = d) (ds : List String) :
    (processDates m [] ds).map StockData.Date = ds.dropWhile (fun d => !(m d).isSome) := by
  induction ds with
  | nil => rfl
  | cons d ds ih =>
    rw [processDates_cons]
    cases hmd : m d with
    | some bar =>
      have hstep : fillStep m [] d = [bar] := by
        unfold fillStep
        rw [hmd]
        rfl
      rw [hstep, processDates_dates_of_ne_nil hm ds [bar] (by simp),
          List.dropWhile_cons_of_neg (by simp [hmd]), List.map_singleton, hm d bar hmd]
      rfl
    | none =>
      have hstep : fillStep m [] d = [] := by
        unfold fillStep
        rw [hmd]
        rfl
      rw [hstep, ih, List.dropWhile_cons_of_pos (by simp [hmd])]

theorem dropWhile_eq_filter_of_sorted {p : String → Bool} {ds : List String}
    (hs : List.Pairwise (fun a b => strLt a b = true) ds) :
    ds.dropWhile (fun d => !(p d)) =
      ds.filter (fun d => ds.any (fun e => strLe e d && p e)) := by
  induction ds with
  | nil => rfl
  | cons d ds ih =>
    rw [List.pairwise_cons] at hs
    obtain ⟨hd, hp⟩ := hs
    cases hpd : p d with
    | true =>
      rw [List.dropWhile_cons_of_neg (by simp [hpd])]
      refine (List.filter_eq_self.mpr ?_).symm
      intro x hx
      rcases List.mem_cons.mp hx with hx | hx
      · subst hx
        refine List.any_eq_true.mpr ⟨x, List.mem_cons_self x ds, ?_⟩
        rw [strLe_refl, hpd]
        rfl
      · refine List.any_eq_true.mpr ⟨d, List.mem_cons_self d ds, ?_⟩
        rw [strLe_of_lt (hd x hx), hpd]
        rfl
    | false =>
      rw [List.dropWhile_cons_of_pos (by simp [hpd]), ih hp]
      have hdrop : (d :: ds).any (fun e => strLe e d && p e) = false := by
        rw [List.any_eq_false]
        intro x hx
        rcases List.mem_cons.mp hx with hx | hx
        · subst hx
          rw [hpd]
          simp
        · have : strLe x d = false := by
            have hlt := hd x hx
            rw [strLe, hlt]
            rfl
          rw [this]
          simp
      rw [List.filter_cons_of_neg (by rw [hdrop]; simp)]
      refine List.filter_congr ?_
      intro x hx
      rw [List.any_cons]
      have : (strLe d x && p d) = false := by
        rw [hpd]
        simp
      rw [this, Bool.false_or]

theorem processDates_verbatim {sd : List StockData} (ds : List String) :
    ∀ filled : List StockData,
      (∀ b ∈ filled, (∃ a ∈ sd, a.Date = b.Date) → b ∈ sd) →
      ∀ b ∈ processDates (buildMap sd) filled ds,
        (∃ a ∈ sd, a.Date = b.Date) → b ∈ sd := by
  induction ds with
  | nil => intro filled hinv; exact hinv
  | cons d ds ih =>
    intro filled hinv
    rw [processDates_cons]
    refine ih _ ?_
    intro b hb
    unfold fillStep at hb
    cases hmd : buildMap sd d with
    | some bar =>
      rw [hmd] at hb
      rcases List.mem_append.mp hb with hb | hb
      · exact hinv b hb
      · intro _
        have := buildMap_eq_some hmd
        rw [List.mem_singleton.mp hb]
        exact this.2
    | none =>
      rw [hmd] at hb
      cases hl : filled.getLast? with
      | none =>
        rw [hl] at hb
        exact hinv b hb
      | some lastData =>
        rw [hl] at hb
        rcases List.mem_append.mp hb with hb | hb
        · exact hinv b hb
        · intro hex
          have hb' := List.mem_singleton.mp hb
          subst hb'
          have hex' : ∃ a ∈ sd, a.Date = d := by simpa using hex
          have hsome := buildMap_isSome_iff.mpr hex'
          rw [hmd] at hsome
          exact absurd hsome (by simp)

theorem processDates_chain {sd : List StockData} (ds : List String) :
    ∀ filled : List StockData,
      List.Chain'
        (fun p q => (¬∃ a ∈ sd, a.Date = q.Date) → q = { p with Date := q.Date }) filled →
      List.Chain'
        (fun p q => (¬∃ a ∈ sd, a.Date = q.Date) → q = { p with Date := q.Date })
        (processDates (buildMap sd) filled ds) := by
  induction ds with
  | nil => intro filled hinv; exact hinv
  | cons d ds ih =>
    intro filled hinv
    rw [processDates_cons]
    refine ih _ ?_
    unfold fillStep
    cases hmd : buildMap sd d with
    | some bar =>
      refine List.chain'_append.mpr ⟨hinv, List.chain'_singleton bar, ?_⟩
      intro x hx y hy
      rw [List.head?_cons, Option.mem_some_iff] at hy
      subst hy
      intro hno
      obtain ⟨hdate, hmem⟩ := buildMap_eq_some hmd
      exact absurd ⟨bar, hmem, rfl⟩ hno
    | none =>
      cases hl : filled.getLast? with
      | none => exact hinv
      | some lastData =>
        refine List.chain'_append.mpr ⟨hinv, List.chain'_singleton _, ?_⟩
        intro x hx y hy
        rw [hl, Option.mem_some_iff] at hx
        rw [List.head?_cons, Option.mem_some_iff] at hy
        subst hx
        subst hy
        intro _
        rfl

theorem processDates_skip {m2 : String → Option StockData} {ds : List String}
    (h : ∀ d ∈ ds, m2 d = none) : processDates m2 [] ds = [] := by
  induction ds with
  | nil => rfl
  | cons d ds ih =>
    rw [processDates_cons]
    have hstep : fillStep m2 [] d = [] := by
      unfold fillStep
      rw [h d (List.mem_cons_self d ds)]
      rfl
    rw [hstep]
    exact ih (fun x hx => h x (List.mem_cons_of_mem d hx))

theorem processDates_follow {outFull : List StockData} :
    ∀ (out' pre : List StockData),
      (∀ b ∈ out', buildMap outFull b.Date = some b) →
      processDates (buildMap outFull) pre (out'.map StockData.Date) = pre ++ out' := by
  intro out'
  induction out' with
  | nil => intro pre _; rw [List.map_nil, processDates_nil, List.append_nil]
  | cons b out' ih =>
    intro pre hbm
    rw [List.map_cons, processDates_cons]
    have hstep : fillStep (buildMap outFull) pre b.Date = pre ++ [b] := by
      unfold fillStep
      rw [hbm b (List.mem_cons_self b out')]
    rw [hstep, ih (pre ++ [b]) (fun x hx => hbm x (List.mem_cons_of_mem b hx)),
        List.append_assoc]
    rfl

theorem composeLoop_spec (init : ℚ) (rBTC rVOO : ℤ) :
    ∀ bs vs : List StockData, bs.length ≤ vs.length →
      ∃ l, composeLoop init rBTC rVOO bs vs = some l ∧ l.length = bs.length ∧
        ∀ (i : Nat) (bi vi : StockData), bs[i]? = some bi → vs[i]? = some vi →
          l[i]? = some (IndexData.mk bi.Date
            ((bi.AdjClose * (rBTC : ℚ) + vi.AdjClose * (rVOO : ℚ)) / init * 100)) := by
  intro bs
  induction bs with
  | nil =>
    intro vs _
    exact ⟨[], rfl, rfl, fun i bi vi hb _ => by simp at hb⟩
  | cons b bs ih =>
    intro vs hlen
    cases vs with
    | nil => simp at hlen
    | cons v vs =>
      obtain ⟨l, hl, hlen', hidx⟩ := ih vs (by simpa using hlen)
      refine ⟨IndexData.mk b.Date
          ((b.AdjClose * (rBTC : ℚ) + v.AdjClose * (rVOO : ℚ)) / init * 100) :: l,
        ?_, by simp [hlen'], ?_⟩
      · show (composeLoop init rBTC rVOO bs vs).map _ = _
        rw [hl]
        rfl
      · intro i bi vi hb hv
        cases i with
        | zero =>
          simp only [List.getElem?_cons_zero, Option.some.injEq] at hb hv ⊢
          rw [← hb, ← hv]
        | succ j =>
          simp only [List.getElem?_cons_succ] at hb hv ⊢
          exact hidx j bi vi hb hv

theorem composeLoop_none (init : ℚ) (rBTC rVOO : ℤ) :
    ∀ bs vs : List StockData, vs.length < bs.length →
      composeLoop init rBTC rVOO bs vs = none := by
  intro bs
  induction bs with
  | nil => intro vs h; simp at h
  | cons b bs ih =>
    intro vs h
    cases vs with
    | nil => rfl
    | cons v vs =>
      show (composeLoop init rBTC rVOO bs vs).map _ = none
      rw [ih vs (by simpa using h)]
      rfl

theorem composeLoop_scale {c : ℤ} (hc : (c : ℚ) ≠ 0) (init : ℚ) (rBTC rVOO : ℤ) :
    ∀ bs vs : List StockData,
      composeLoop ((c : ℚ) * init) (c * rBTC) (c * rVOO) bs vs =
        composeLoop init rBTC rVOO bs vs := by
  intro bs
  induction bs with
  | nil => intro vs; rfl
  | cons b bs ih =>
    intro vs
    cases vs with
    | nil => rfl
    | cons v vs =>
      show (composeLoop _ _ _ bs vs).map _ = (composeLoop _ _ _ bs vs).map _
      rw [ih vs]
      cases composeLoop init rBTC rVOO bs vs with
      | none => rfl
      | some l =>
        simp only [Option.map_some', Option.some.injEq, List.cons.injEq, and_true]
        congr 1
        have : b.AdjClose * ((c * rBTC : ℤ) : ℚ) + v.AdjClose * ((c * rVOO : ℤ) : ℚ) =
            (c : ℚ) * (b.AdjClose * (rBTC : ℚ) + v.AdjClose * (rVOO : ℚ)) := by
          push_cast
          ring
        rw [this, mul_div_mul_left _ _ hc]

/-- C1: for positionally aligned non-empty series and integer weights, the
composition (Handler lines 107-123) yields one output point per crypto bar:
the first is exactly `{seriesA[0].date, 100}` and point `i` carries value
`(A[i].adjustedClose*wA + B[i].adjustedClose*wB) / baseline * 100`. -/
theorem compose_formula (btc voo : List StockData) (rBTC rVOO : ℤ) (b0 v0 : StockData)
    (hb : btc.head? = some b0) (hv : voo.head? = some v0)
    (hlen : voo.length = btc.length) :
    ∃ out, composeIndex btc voo rBTC rVOO = some out ∧ out.length = btc.length ∧
      out.head? = some (IndexData.mk b0.Date 100) ∧
      ∀ (i : Nat) (bi vi : StockData), 0 < i → btc[i]? = some bi → voo[i]? = some vi →
        out[i]? = some (IndexData.mk bi.Date
          ((bi.AdjClose * (rBTC : ℚ) + vi.AdjClose * (rVOO : ℚ)) /
            (b0.AdjClose * (rBTC : ℚ) + v0.AdjClose * (rVOO : ℚ)) * 100)) := by
  cases btc with
  | nil => exact absurd hb (by simp)
  | cons b bs =>
    cases voo with
    | nil => exact absurd hv (by simp)
    | cons v vs =>
      rw [List.head?_cons, Option.some.injEq] at hb hv
      subst hb
      subst hv
      obtain ⟨l, hl, hlen2, hidx⟩ :=
        composeLoop_spec (b.AdjClose * (rBTC : ℚ) + v.AdjClose * (rVOO : ℚ)) rBTC rVOO bs vs
          (by simp at hlen; omega)
      refine ⟨IndexData.mk b.Date 100 :: l, ?_, by simp [hlen2], by simp, ?_⟩
      · show (composeLoop _ _ _ bs vs).map _ = _
        rw [hl]
        rfl
      · intro i bi vi hpos hbi hvi
        cases i with
        | zero => omega
        | succ j =>
          simp only [List.getElem?_cons_succ] at hbi hvi ⊢
          exact hidx j bi vi hbi hvi

/-- C1 witness: the theorem applied to two concrete aligned two-point series. -/
theorem compose_formula_witness :
    ∃ out, composeIndex
        [StockData.mk "2019-01-02" 0 0 0 0 200 0, StockData.mk "2019-01-03" 0 0 0 0 180 0]
        [StockData.mk "2019-01-02" 0 0 0 0 100 0, StockData.mk "2019-01-03" 0 0 0 0 110 0]
        1 9 = some out ∧ out.length = 2 ∧
      out.head? = some (IndexData.mk "2019-01-02" 100) ∧
      ∀ (i : Nat) (bi vi : StockData), 0 < i →
        [StockData.mk "2019-01-02" 0 0 0 0 200 0, StockData.mk "2019-01-03" 0 0 0 0 180 0][i]? = some bi →
        [StockData.mk "2019-01-02" 0 0 0 0 100 0, StockData.mk "2019-01-03" 0 0 0 0 110 0][i]? = some vi →
        out[i]? = some (IndexData.mk bi.Date
          ((bi.AdjClose * ((1 : ℤ) : ℚ) + vi.AdjClose * ((9 : ℤ) : ℚ)) /
            ((StockData.mk "2019-01-02" 0 0 0 0 200 0).AdjClose * ((1 : ℤ) : ℚ) +
              (StockData.mk "2019-01-02" 0 0 0 0 100 0).AdjClose * ((9 : ℤ) : ℚ)) * 100)) :=
  compose_formula
    [StockData.mk "2019-01-02" 0 0 0 0 200 0, StockData.mk "2019-01-03" 0 0 0 0 180 0]
    [StockData.mk "2019-01-02" 0 0 0 0 100 0, StockData.mk "2019-01-03" 0 0 0 0 110 0]
    1 9 (StockData.mk "2019-01-02" 0 0 0 0 200 0) (StockData.mk "2019-01-02" 0 0 0 0 100 0)
    rfl rfl rfl

/-- C9: scaling both integer weights by the same positive constant `c`
leaves the composed index unchanged. -/
theorem compose_scale_invariant (btc voo : List StockData) (rBTC rVOO c : ℤ)
    (b0 v0 : StockData) (hb : btc.head? = some b0) (hv : voo.head? = some v0)
    (hbase : b0.AdjClose * (rBTC : ℚ) + v0.AdjClose * (rVOO : ℚ) ≠ 0) (hc : 0 < c) :
    composeIndex btc voo (c * rBTC) (c * rVOO) = composeIndex btc voo rBTC rVOO := by
  have hc2 : (c : ℚ) ≠ 0 := Int.cast_ne_zero.mpr (by omega)
  cases btc with
  | nil => exact absurd hb (by simp)
  | cons b bs =>
    cases voo with
    | nil => exact absurd hv (by simp)
    | cons v vs =>
      rw [List.head?_cons, Option.some.injEq] at hb hv
      subst hb
      subst hv
      show (composeLoop _ _ _ bs vs).map _ = (composeLoop _ _ _ bs vs).map _
      have hinit : b.AdjClose * ((c * rBTC : ℤ) : ℚ) + v.AdjClose * ((c * rVOO : ℤ) : ℚ) =
          (c : ℚ) * (b.AdjClose * (rBTC : ℚ) + v.AdjClose * (rVOO : ℚ)) := by
        push_cast
        ring
      rw [hinit, composeLoop_scale hc2]

/-- C9 witness: the theorem applied at concrete series and `c = 3`. -/
theorem compose_scale_invariant_witness :
    composeIndex
        [StockData.mk "2019-01-02" 0 0 0 0 200 0, StockData.mk "2019-01-03" 0 0 0 0 180 0]
        [StockData.mk "2019-01-02" 0 0 0 0 100 0, StockData.mk "2019-01-03" 0 0 0 0 110 0]
        (3 * 1) (3 * 9) = composeIndex
        [StockData.mk "2019-01-02" 0 0 0 0 200 0, StockData.mk "2019-01-03" 0 0 0 0 180 0]
        [StockData.mk "2019-01-02" 0 0 0 0 100 0, StockData.mk "2019-01-03" 0 0 0 0 110 0]
        1 9 :=
  compose_scale_invariant
    [StockData.mk "2019-01-02" 0 0 0 0 200 0, StockData.mk "2019-01-03" 0 0 0 0 180 0]
    [StockData.mk "2019-01-02" 0 0 0 0 100 0, StockData.mk "2019-01-03" 0 0 0 0 110 0]
    1 9 3 (StockData.mk "2019-01-02" 0 0 0 0 200 0) (StockData.mk "2019-01-02" 0 0 0 0 100 0)
    rfl rfl (by norm_num) (by norm_num)

/-- C10: the Handler indexes both series without bounds checks (lines
99-123): an empty crypto series or a forward-filled equity series shorter
than the crypto series makes an access go out of range (`none`, a panic),
and under the precondition `btc ≠ [] ∧ len btc ≤ len vooFF` every access is
in range. -/
theorem handler_index_bounds (btc voo : List StockData) (rBTC rVOO : ℤ) :
    (btc = [] → handlerIndexStage btc voo rBTC rVOO = none) ∧
    (voo.length < btc.length → handlerIndexStage btc voo rBTC rVOO = none) ∧
    (btc ≠ [] → btc.length ≤ voo.length →
      (handlerIndexStage btc voo rBTC rVOO).isSome = true) := by
  refine ⟨?_, ?_, ?_⟩
  · intro h
    subst h
    rfl
  · intro hlen
    cases btc with
    | nil => simp at hlen
    | cons b bs =>
      cases hlast : (b :: bs).getLast? with
      | none => exact absurd (List.getLast?_eq_none_iff.mp hlast) (by simp)
      | some x =>
        show (match (b :: bs).getLast? with
          | none => none
          | some _ => composeIndex (b :: bs) voo rBTC rVOO) = none
        rw [hlast]
        cases voo with
        | nil => rfl
        | cons v vs =>
          show (composeLoop _ _ _ bs vs).map _ = none
          rw [composeLoop_none _ _ _ bs vs (by simp at hlen; omega)]
          rfl
  · intro hne hlen
    cases btc with
    | nil => exact absurd rfl hne
    | cons b bs =>
      cases hlast : (b :: bs).getLast? with
      | none => exact absurd (List.getLast?_eq_none_iff.mp hlast) (by simp)
      | some x =>
        show (match (b :: bs).getLast? with
          | none => none
          | some _ => composeIndex (b :: bs) voo rBTC rVOO).isSome = true
        rw [hlast]
        cases voo with
        | nil => simp at hlen
        | cons v vs =>
          obtain ⟨l, hl, -, -⟩ :=
            composeLoop_spec (b.AdjClose * (rBTC : ℚ) + v.AdjClose * (rVOO : ℚ)) rBTC rVOO bs vs
              (by simp at hlen; omega)
          show ((composeLoop _ _ _ bs vs).map _).isSome = true
          rw [hl]
          rfl

/-- C10 witness: the theorem applied at concrete inputs, giving a panic on
the empty crypto series and on a too-short equity series, and a defined
result under the precondition. -/
theorem handler_index_bounds_witness :
    handlerIndexStage [] [StockData.mk "2019-01-02" 0 0 0 0 100 0] 1 9 = none ∧
    handlerIndexStage [StockData.mk "2019-01-02" 0 0 0 0 200 0,
      StockData.mk "2019-01-03" 0 0 0 0 180 0] [StockData.mk "2019-01-02" 0 0 0 0 100 0] 1 9
      = none ∧
    (handlerIndexStage [StockData.mk "2019-01-02" 0 0 0 0 200 0]
      [StockData.mk "2019-01-02" 0 0 0 0 100 0] 1 9).isSome = true :=
  ⟨(handler_index_bounds [] [StockData.mk "2019-01-02" 0 0 0 0 100 0] 1 9).1 rfl,
   (handler_index_bounds _ _ 1 9).2.1 (by decide),
   (handler_index_bounds [StockData.mk "2019-01-02" 0 0 0 0 200 0]
      [StockData.mk "2019-01-02" 0 0 0 0 100 0] 1 9).2.2 (by decide) (by decide)⟩

/-- C4 (code baseline bug): with a zero baseline the composition is not
rejected: the Handler divides by zero unconditionally and emits a
full-length output (in the `ℚ` model the division yields 0; in Go's
`float64` it yields `±Inf`/`NaN`). -/
theorem compose_zero_baseline_not_rejected :
    composeIndex
        [StockData.mk "2019-01-02" 0 0 0 0 0 0, StockData.mk "2019-01-03" 0 0 0 0 1 0]
        [StockData.mk "2019-01-02" 0 0 0 0 0 0, StockData.mk "2019-01-03" 0 0 0 0 2 0]
        1 9
      = some [IndexData.mk "2019-01-02" 100, IndexData.mk "2019-01-03" 0] := by
  simp [composeIndex, composeLoop]

/-- C7: the token is resolved case-insensitively (`strings.ToUpper`) against
the three presets, with the 9/1, 7/3 and 5/5 weights, and the handler
answers 400 exactly for the empty token and for tokens outside the preset
set (Handler lines 57-86); resolution is total, it never panics. -/
theorem resolve_symbol_spec :
    resolveSymbol "quartz9" = .proceed 9 1 ∧
    resolveSymbol "Quartz9" = .proceed 9 1 ∧
    resolveSymbol "QUARTZ9" = .proceed 9 1 ∧
    resolveSymbol "quartz7" = .proceed 7 3 ∧
    resolveSymbol "quartz5" = .proceed 5 5 ∧
    ∀ s : String, (∃ msg, resolveSymbol s = .badRequest msg) ↔
      (s = "" ∨ (toUpperGo s ≠ "QUARTZ9" ∧ toUpperGo s ≠ "QUARTZ7" ∧ toUpperGo s ≠ "QUARTZ5")) := by
  refine ⟨by decide, by decide, by decide, by decide, by decide, ?_⟩
  intro s
  unfold resolveSymbol
  split_ifs <;> simp [*]

/-- C3 (error-handling bug): every failure of `PrepareSymbolJSONData` is a
`log.Fatal`: a decode failure of a fetched payload, a failed upstream
fetch, and a failed cache write each terminate the process instead of
producing a per-request error response. -/
theorem prepare_fatal_on_failure :
    prepareSymbolJSONData (fun _ => none) (some [1, 2]) true [] "cache" "VOO.US" "2026-02-03"
      = .fatal ∧
    prepareSymbolJSONData (fun _ => some []) none true [] "cache" "VOO.US" "2026-02-03"
      = .fatal ∧
    prepareSymbolJSONData (fun _ => some []) (some [1, 2]) false [] "cache" "VOO.US" "2026-02-03"
      = .fatal :=
  ⟨rfl, rfl, rfl⟩

theorem fsRead_fsWrite (fs : FileSys) (path : String) (data : Bytes) :
    fsRead (fsWrite fs path data) path = some data := by
  unfold fsRead fsWrite
  rw [List.find?_cons_of_pos _ (by simp)]

/-- C6: `PrepareSymbolJSONData` (lines 140-188): when the snapshot for
`(symbol, today)` exists it is deserialized and returned with no fetch (the
result is the same for every fetch outcome and the cache is unchanged);
when it does not exist, the fetch runs, the raw fetched bytes are persisted
verbatim under the snapshot key, and the decoded series is returned. -/
theorem prepare_snapshot_spec (decode : Bytes → Option (List StockData))
    (fetchRes : Option Bytes) (writeOk : Bool) (fs : FileSys)
    (cacheDir symbol date : String) (sd : List StockData) (body : Bytes) :
    (fsRead fs (snapshotPath cacheDir symbol date) = some body → decode body = some sd →
      prepareSymbolJSONData decode fetchRes writeOk fs cacheDir symbol date = .ok sd fs) ∧
    (fsRead fs (snapshotPath cacheDir symbol date) = none → fetchRes = some body →
      decode body = some sd → writeOk = true →
      prepareSymbolJSONData decode fetchRes writeOk fs cacheDir symbol date =
        .ok sd (fsWrite fs (snapshotPath cacheDir symbol date) body)) := by
  constructor
  · intro hread hdec
    simp [prepareSymbolJSONData, hread, hdec]
  · intro hread hfetch hdec hwrite
    subst hfetch
    subst hwrite
    simp [prepareSymbolJSONData, hread, hdec, fsRead_fsWrite]

/-- C6 witness: the theorem applied on a concrete cache state, once warm
(snapshot present, arbitrary failing fetch) and once cold. -/
theorem prepare_snapshot_spec_witness :
    (prepareSymbolJSONData
      (fun bs => if bs = [7, 8] then some [StockData.mk "2019-01-02" 1 1 1 1 5 10] else none)
      none true [(snapshotPath "cache" "VOO.US" "2026-02-03", [7, 8])]
      "cache" "VOO.US" "2026-02-03"
      = .ok [StockData.mk "2019-01-02" 1 1 1 1 5 10]
          [(snapshotPath "cache" "VOO.US" "2026-02-03", [7, 8])]) ∧
    (prepareSymbolJSONData
      (fun bs => if bs = [7, 8] then some [StockData.mk "2019-01-02" 1 1 1 1 5 10] else none)
      (some [7, 8]) true [] "cache" "VOO.US" "2026-02-03"
      = .ok [StockData.mk "2019-01-02" 1 1 1 1 5 10]
          (fsWrite [] (snapshotPath "cache" "VOO.US" "2026-02-03") [7, 8])) :=
  ⟨(prepare_snapshot_spec _ none true _ "cache" "VOO.US" "2026-02-03" _ [7, 8]).1
      rfl (by decide),
   (prepare_snapshot_spec _ (some [7, 8]) true [] "cache" "VOO.US" "2026-02-03" _ [7, 8]).2
      rfl rfl (by decide) rfl⟩

theorem ffLoop_diverges (fuel : Nat) (m : String → Option StockData) (filled : List StockData)
    {cur e : String} (hp : parseDate cur = none) (hle : strLe cur e = true) :
    ffLoop fuel m filled cur e = none := by
  rw [ffLoop_eq, dateWalk_none fuel hp hle]
  rfl

/-- C5 (amended): an unparseable date string does not stop the walk early:
`incrementDate` yields `""`, which still satisfies the loop bound
`currentDate <= endDate`, so when the unparseable start date compares at or
below the end date the loop never terminates (no fuel suffices) and no bars
are ever returned; only when the unparseable start date already exceeds the
end date does the fill return (immediately, with no bars). -/
theorem forwardFill_unparseable_start (sd : List StockData) (s e : String)
    (hp : parseDate s = none) :
    (strLe s e = true → ∀ fuel, forwardFillStockData fuel sd s e = none) ∧
    (strLe s e = false → ∀ fuel, forwardFillStockData fuel sd s e = some []) := by
  constructor
  · intro hle fuel
    exact ffLoop_diverges fuel _ [] hp hle
  · intro hgt fuel
    unfold forwardFillStockData
    cases fuel with
    | zero => rw [ffLoop_zero, if_neg (by simp [hgt])]
    | succ k => rw [ffLoop_succ, if_neg (by simp [hgt])]

/-- C5 witness: the theorem applied to the unparseable start dates
`"2019-13-01"` (below the end date: the loop never returns) and `"x"`
(above the end date: immediate empty return). -/
theorem forwardFill_unparseable_start_witness :
    forwardFillStockData 5 [] "2019-13-01" "2020-01-01" = none ∧
    forwardFillStockData 5 [] "x" "2020-01-01" = some [] :=
  ⟨(forwardFill_unparseable_start [] "2019-13-01" "2020-01-01" (by decide)).1 (by decide) 5,
   (forwardFill_unparseable_start [] "x" "2020-01-01" (by decide)).2 (by decide) 5⟩

/-- C5 counterexample: the claim "the walk terminates (the loop stops
early) ... forwardFill terminates on every input, including an unparseable
startDate" is false: on the unparseable start date `"2019-13-01"` (which
compares below the end date) no amount of fuel makes the loop return. -/
theorem forwardFill_not_terminating :
    ¬ ffTerminates [] "2019-13-01" "2020-01-01" := by
  rintro ⟨fuel, out, h⟩
  rw [forwardFillStockData,
      ffLoop_diverges fuel _ [] (by decide) (by decide)] at h
  exact Option.noConfusion h

theorem strLt_irrefl (s : String) : strLt s s = false := listLt_self _

theorem strLt_ne {s t : String} (h : strLt s t = true) : s ≠ t := by
  intro heq
  subst heq
  rw [strLt_irrefl] at h
  exact Bool.noConfusion h

theorem bool_eq_of_iff {a b : Bool} (h : a = true ↔ b = true) : a = b := by
  cases a <;> cases b <;> simp_all

/-- C8: `forwardFill` is idempotent: a completed fill, re-run on its own
output over the same date range (and the same fuel), returns exactly the
same output. -/
theorem forwardFill_idempotent (fuel : Nat) (sd : List StockData) (s e : String)
    (out : List StockData) (hrun : forwardFillStockData fuel sd s e = some out) :
    forwardFillStockData fuel out s e = some out := by
  unfold forwardFillStockData at hrun ⊢
  rw [ffLoop_eq] at hrun ⊢
  cases hw : dateWalk fuel s e with
  | none => rw [hw] at hrun; exact absurd hrun (by simp)
  | some ds =>
    rw [hw] at hrun
    simp only [Option.map_some', Option.some.injEq] at hrun ⊢
    have hm : ∀ d b, buildMap sd d = some b → b.Date = d :=
      fun d b h => (buildMap_eq_some h).1
    have hdates : out.map StockData.Date =
        ds.dropWhile (fun d => !(buildMap sd d).isSome) := by
      rw [← hrun]
      exact processDates_dates hm ds
    have hnodup : ds.Nodup :=
      (dateWalk_pairwise hw).imp (fun hlt => strLt_ne hlt)
    have hsplit : ds.takeWhile (fun d => !(buildMap sd d).isSome) ++
        ds.dropWhile (fun d => !(buildMap sd d).isSome) = ds :=
      List.takeWhile_append_dropWhile _ ds
    have hnodup2 : (ds.takeWhile (fun d => !(buildMap sd d).isSome) ++
        ds.dropWhile (fun d => !(buildMap sd d).isSome)).Nodup := by
      rw [hsplit]
      exact hnodup
    obtain ⟨-, hkeepnodup, hdisj⟩ := List.nodup_append.mp hnodup2
    have houtnodup : (out.map StockData.Date).Nodup := by
      rw [hdates]
      exact hkeepnodup
    have hskip : ∀ d ∈ ds.takeWhile (fun d => !(buildMap sd d).isSome),
        buildMap out d = none := by
      intro d hd
      apply buildMap_eq_none
      rintro ⟨b, hb, hbd⟩
      have hmem : b.Date ∈ out.map StockData.Date := List.mem_map_of_mem _ hb
      rw [hdates] at hmem
      exact hdisj hd (hbd ▸ hmem)
    have hfollow : ∀ b ∈ out, buildMap out b.Date = some b :=
      fun b hb => buildMap_nodup houtnodup hb
    calc processDates (buildMap out) [] ds
        = processDates (buildMap out) []
            (ds.takeWhile (fun d => !(buildMap sd d).isSome) ++
              ds.dropWhile (fun d => !(buildMap sd d).isSome)) := by rw [hsplit]
      _ = processDates (buildMap out)
            (processDates (buildMap out) [] (ds.takeWhile (fun d => !(buildMap sd d).isSome)))
            (ds.dropWhile (fun d => !(buildMap sd d).isSome)) := processDates_append _ _ _ _
      _ = processDates (buildMap out) []
            (ds.dropWhile (fun d => !(buildMap sd d).isSome)) := by
            rw [processDates_skip hskip]
      _ = processDates (buildMap out) [] (out.map StockData.Date) := by rw [hdates]
      _ = [] ++ out := processDates_follow out [] hfollow
      _ = out := by simp

/-- C8 witness: the theorem applied to a two-bar series with a weekend gap;
re-running the fill on the filled output returns it unchanged. -/
theorem forwardFill_idempotent_witness :
    forwardFillStockData 4
      [StockData.mk "2019-01-02" 1 2 3 4 5 10, StockData.mk "2019-01-03" 1 2 3 4 5 10,
        StockData.mk "2019-01-04" 6 7 8 9 10 11]
      "2019-01-02" "2019-01-04" =
      some [StockData.mk "2019-01-02" 1 2 3 4 5 10, StockData.mk "2019-01-03" 1 2 3 4 5 10,
        StockData.mk "2019-01-04" 6 7 8 9 10 11] :=
  forwardFill_idempotent 4
    [StockData.mk "2019-01-02" 1 2 3 4 5 10, StockData.mk "2019-01-04" 6 7 8 9 10 11]
    "2019-01-02" "2019-01-04"
    [StockData.mk "2019-01-02" 1 2 3 4 5 10, StockData.mk "2019-01-03" 1 2 3 4 5 10,
      StockData.mk "2019-01-04" 6 7 8 9 10 11]
    (by decide)

/-- C2 (amended): for a series with unique, parseable dates and a parseable
start date, a completed fill emits exactly one bar per walked calendar date
for which the series has at least one observation dated within
`[startDate, that date]`; dates present in the input are emitted verbatim,
absent dates carry the previous emitted bar's values with the current
date, and leading dates before the first observation in range are skipped. -/
theorem forwardFill_spec (fuel : Nat) (sd : List StockData) (s e : String)
    (out : List StockData)
    (hstart : (parseDate s).isSome = true)
    (hdates : ∀ b ∈ sd, (parseDate b.Date).isSome = true)
    (_hnodup : (sd.map StockData.Date).Nodup)
    (hrun : forwardFillStockData fuel sd s e = some out) :
    ∃ ds, dateWalk fuel s e = some ds ∧
      out.map StockData.Date =
        ds.filter (fun d => sd.any (fun b => strLe s b.Date && strLe b.Date d)) ∧
      (∀ b ∈ out, (∃ a ∈ sd, a.Date = b.Date) → b ∈ sd) ∧
      List.Chain' (fun p q => (¬∃ a ∈ sd, a.Date = q.Date) → q = { p with Date := q.Date })
        out := by
  unfold forwardFillStockData at hrun
  rw [ffLoop_eq] at hrun
  cases hw : dateWalk fuel s e with
  | none => rw [hw] at hrun; exact absurd hrun (by simp)
  | some ds =>
    rw [hw] at hrun
    simp only [Option.map_some', Option.some.injEq] at hrun
    have hm : ∀ d b, buildMap sd d = some b → b.Date = d :=
      fun d b h => (buildMap_eq_some h).1
    refine ⟨ds, rfl, ?_, ?_, ?_⟩
    · rw [← hrun, processDates_dates hm ds,
          dropWhile_eq_filter_of_sorted (dateWalk_pairwise hw)]
      refine List.filter_congr ?_
      intro d hd
      refine bool_eq_of_iff ?_
      rw [List.any_eq_true, List.any_eq_true]
      constructor
      · rintro ⟨d', hd', hcond⟩
        rw [Bool.and_eq_true] at hcond
        obtain ⟨hled, hsome⟩ := hcond
        obtain ⟨b, hb, hbd⟩ := buildMap_isSome_iff.mp hsome
        refine ⟨b, hb, ?_⟩
        rw [Bool.and_eq_true, hbd]
        exact ⟨dateWalk_lb hw d' hd', hled⟩
      · rintro ⟨b, hb, hcond⟩
        rw [Bool.and_eq_true] at hcond
        obtain ⟨hsb, hbd⟩ := hcond
        refine ⟨b.Date, ?_, ?_⟩
        · refine dateWalk_complete hw hstart (hdates b hb) hsb ?_
          exact strLe_trans hbd (dateWalk_le hw d hd)
        · rw [Bool.and_eq_true]
          exact ⟨hbd, buildMap_isSome_iff.mpr ⟨b, hb, rfl⟩⟩
    · rw [← hrun]
      exact processDates_verbatim ds [] (by intro b hb; simp at hb) 
    · rw [← hrun]
      exact processDates_chain ds [] List.chain'_nil

/-- C2 witness: the theorem applied to a one-bar series starting after the
range start: the leading date is skipped, the bar is emitted verbatim, and
the following gap date carries its values forward. -/
theorem forwardFill_spec_witness :
    ∃ ds, dateWalk 4 "2019-01-02" "2019-01-04" = some ds ∧
      ([StockData.mk "2019-01-03" 1 2 3 4 5 10,
        StockData.mk "2019-01-04" 1 2 3 4 5 10].map StockData.Date) =
        ds.filter (fun d => [StockData.mk "2019-01-03" 1 2 3 4 5 10].any
          (fun b => strLe "2019-01-02" b.Date && strLe b.Date d)) ∧
      (∀ b ∈ [StockData.mk "2019-01-03" 1 2 3 4 5 10,
          StockData.mk "2019-01-04" 1 2 3 4 5 10],
        (∃ a ∈ [StockData.mk "2019-01-03" 1 2 3 4 5 10], a.Date = b.Date) →
          b ∈ [StockData.mk "2019-01-03" 1 2 3 4 5 10]) ∧
      List.Chain'
        (fun p q => (¬∃ a ∈ [StockData.mk "2019-01-03" 1 2 3 4 5 10], a.Date = q.Date) →
          q = { p with Date := q.Date })
        [StockData.mk "2019-01-03" 1 2 3 4 5 10, StockData.mk "2019-01-04" 1 2 3 4 5 10] :=
  forwardFill_spec 4 [StockData.mk "2019-01-03" 1 2 3 4 5 10] "2019-01-02" "2019-01-04"
    [StockData.mk "2019-01-03" 1 2 3 4 5 10, StockData.mk "2019-01-04" 1 2 3 4 5 10]
    (by decide) (by decide) (by decide) (by decide)

/-- C2 counterexample: as literally stated the claim fails when the series
has an observation strictly before `startDate`: the range date
`"2019-01-02"` has an observation on or before it, yet the fill emits
nothing (the walk finds no bar at any walked date and nothing was emitted
before), so the output does not contain one bar per such date. -/
theorem forwardFill_claim_counterexample :
    forwardFillStockData 2 [StockData.mk "2019-01-01" 1 2 3 4 5 10]
        "2019-01-02" "2019-01-02" = some [] ∧
    dateWalk 2 "2019-01-02" "2019-01-02" = some ["2019-01-02"] ∧
    ([] : List StockData).map StockData.Date ≠
      (["2019-01-02"].filter (fun d => [StockData.mk "2019-01-01" 1 2 3 4 5 10].any
        (fun b => strLe b.Date d))) :=
  ⟨by decide, by decide, by decide⟩
